import Mathlib

/-!
Verification of the probe-training core of the `elk` repository against its
natural-language specification.

The development shallowly embeds the Python sources:

* `src/elk/training/train.py` (`Elicit.apply_to_layer`) — the per-layer
  orchestrator, embedded as `Elk.applyToLayer` together with an explicit
  event log recording seeding, persistence and fitting actions;
* `src/elk/training/burns_norm.py` (`BurnsNorm.forward`) — embedded over `ℝ`
  as `Elk.burnsNorm` (trailing axes after the variant axis are flattened
  into a single index, which is faithful because the source only ever takes
  means over all trailing axes at once);
* `src/elk/extraction/prompt_loading.py` (`load_prompts`,
  `_convert_to_prompts`) — embedded as `Elk.loadPrompts` and
  `Elk.convertToPrompts`.

Reporter internals (`EigenReporter`, `CcsReporter`) and the metrics module
(`evaluate_preds` / `EvalResult.to_dict`) are not part of the provided
sources; where a claim depends on them they are modelled from the spec, with
each such definition carrying a doc comment starting `Modelled from the
spec:`.  Machine floats are modelled by exact `ℚ`/`ℝ` arithmetic; Python
exceptions by an `Except` error channel.
-/

namespace Elk

deriving instance DecidableEq for Except

/-- Python exception kinds that the embedded code can raise. -/
inductive PyError where
  | valueError (msg : String)
  | assertionError (msg : String)
  | indexError
  | keyError
deriving DecidableEq

/-- Observable actions performed by one layer-job of `Elicit.apply_to_layer`
(`src/elk/training/train.py`).  The log records, in program order: the call
to `make_reproducible` (`seedSet`), the write of `cfg.yaml` by
`create_models_dir` (`savedConfig`), the reporter-fitting calls, the
reporter checkpoint write, and the supervised-baseline model write. -/
inductive Event where
  | seedSet (s : ℤ)
  | savedConfig
  | fitCcs
  | updateEigen (name : String)
  | fitEigenStreaming
  | plattScaled
  | savedReporter (layer : ℕ)
  | savedLrModels (layer : ℕ)
deriving DecidableEq

/-- One dataset's worth of data handed to a layer-job by `prepare_data`:
its name, the train activation tensor of shape `(n, v, k, d)` (entries as a
total function, read only inside the shape), the number of answer choices of
the validation tensor, and whether the upstream language model's own
predictions (`val_lm_preds`) were provided for the validation split. -/
structure DsInfo where
  name : String
  n : ℕ
  v : ℕ
  k : ℕ
  d : ℕ
  train : ℕ → ℕ → ℕ → ℕ → ℚ
  valK : ℕ
  hasLmPreds : Bool

/-- Configuration of an `Elicit` run: which reporter variant `net` is
(`ccs` or `eigen`, the two branches of the `subgroups` tagged union), the
base seed carried by the reporter config, the `supervised` mode string, and
the number of baseline models the external `train_supervised` returns when
enabled. -/
structure ElicitCfg where
  isCcs : Bool
  seed : ℤ
  supervised : String
  lrIters : ℕ

/-- Running statistics of the streaming covariance accumulator inside the
Eigen reporter: total example count and the two `D × D` covariance matrices
(between-class and variant-invariance), kept as total index functions.
Modelled from the spec: §3/§4.2 — `EigenReporter` is not under `src/`. -/
structure EigenStats where
  n : ℕ
  inter : ℕ → ℕ → ℚ
  intra : ℕ → ℕ → ℚ

/-- Modelled from the spec: the accumulator starts empty (§4.2);
`EigenReporter.__init__` is not under `src/`. -/
def eigenInit : EigenStats := ⟨0, fun _ _ => 0, fun _ _ => 0⟩

/-- Mean of a batch over examples, variants and classes, per hidden index. -/
def batchMean (ds : DsInfo) (x : ℕ) : ℚ :=
  (∑ i ∈ Finset.range ds.n, ∑ a ∈ Finset.range ds.v, ∑ j ∈ Finset.range ds.k,
      ds.train i a j x) / (ds.n * ds.v * ds.k : ℕ)

/-- Per-class mean of a batch over examples and variants. -/
def classMean (ds : DsInfo) (j x : ℕ) : ℚ :=
  (∑ i ∈ Finset.range ds.n, ∑ a ∈ Finset.range ds.v, ds.train i a j x)
    / (ds.n * ds.v : ℕ)

/-- Per-(example, class) mean of a batch over variants. -/
def variantMean (ds : DsInfo) (i j x : ℕ) : ℚ :=
  (∑ a ∈ Finset.range ds.v, ds.train i a j x) / (ds.v : ℕ)

/-- Modelled from the spec: §4.2 — the between-class ("informativeness")
covariance of one batch: covariance of the per-class mean vectors around the
batch mean, computed with the batch's own class count `k`, so batches with
different `k` need no shared one-hot encoding. -/
def interBatch (ds : DsInfo) (x y : ℕ) : ℚ :=
  (∑ j ∈ Finset.range ds.k,
      (classMean ds j x - batchMean ds x) * (classMean ds j y - batchMean ds y))
    / (ds.k : ℕ)

/-- Modelled from the spec: §4.2 — the variant-invariance covariance of one
batch: covariance of each cell's deviation from its per-(example, class)
mean over variants. -/
def intraBatch (ds : DsInfo) (x y : ℕ) : ℚ :=
  (∑ i ∈ Finset.range ds.n, ∑ a ∈ Finset.range ds.v, ∑ j ∈ Finset.range ds.k,
      (ds.train i a j x - variantMean ds i j x) *
        (ds.train i a j y - variantMean ds i j y))
    / (ds.n * ds.v * ds.k : ℕ)

/-- Modelled from the spec: §4.2 — `update` folds one batch into the running
statistics by a sample-weighted merge (weights proportional to example
counts, the documented default of §9); with `num_classes = None` the batch's
own class count is used, so `K` may differ between calls.  Total: exact
rational arithmetic has no non-finite values. -/
def eigenUpdate (acc : EigenStats) (ds : DsInfo) : EigenStats :=
  { n := acc.n + ds.n
    inter := fun x y =>
      ((acc.n : ℚ) * acc.inter x y + (ds.n : ℚ) * interBatch ds x y)
        / ((acc.n : ℚ) + (ds.n : ℚ))
    intra := fun x y =>
      ((acc.n : ℚ) * acc.intra x y + (ds.n : ℚ) * intraBatch ds x y)
        / ((acc.n : ℚ) + (ds.n : ℚ)) }

/-- Modelled from the spec: §4.4 — `fit_streaming` finalizes the accumulator
and returns the training objective contrasting between-class covariance
against variant-invariance covariance ("ratio or difference, per
configuration").  The numerical eigensolver is not under `src/`; the
objective is modelled as the trace of the difference of the two finalized
matrices, a total function of the statistics (over exact rationals the
regularized solve of §4.4 always has a finite result, so no error path
exists). -/
def eigenObjective (d : ℕ) (s : EigenStats) : ℚ :=
  ∑ x ∈ Finset.range d, (s.inter x x - s.intra x x)

/-- Modelled from the spec: §4.3 — `CcsReporter.fit` returns the final
scalar loss of the optimized direction.  The optimizer is not under `src/`
and the spec does not determine the returned value; no claim inspects it,
only the fact and position of the call (recorded as `Event.fitCcs`). -/
def ccsFitLoss (_ds : DsInfo) : ℚ := 0

/-- Modelled from the spec: §4.6 — `evaluate(ground_truth, predictions)`
computes accuracy and an AUROC-style metric, so `EvalResult.to_dict()`
(metrics module, not under `src/`) contributes exactly these row keys. -/
def toDictKeys : List String := ["accuracy", "auroc"]

/-- A result row, modelled as the evaluated dataset's name together with the
ordered list of column keys the row carries (claim-relevant content; the
numeric cell values live in the external metrics module). -/
abbrev Row := String × List String

/-- The tables returned by one layer-job (`row_bufs` in
`Elicit.apply_to_layer`), plus the reporter's training loss.  A table with
no rows corresponds to a key absent from the returned dict. -/
structure RunOutput where
  trainLoss : ℚ
  evalT : List Row
  lmT : List Row
  lrT : List Row
deriving DecidableEq

/-- The error message of the hidden-width check in `Elicit.apply_to_layer`
(`train.py` line 68). -/
def widthMsg : String := "All datasets must have the same hidden state size"

/-- The tail of `Elicit.apply_to_layer` after a reporter has been trained
(`train.py` lines 118–157): save the reporter checkpoint, optionally train
and save the supervised baseline, then build one `eval` row per validation
dataset, one `lm_eval` row per dataset whose `val_lm_preds` is present, and
one `lr_eval` row per (dataset, baseline iteration). -/
def finishRun (cfg : ElicitCfg) (layer : ℕ) (dss : List DsInfo) (trainLoss : ℚ)
    (log : List Event) : List Event × Except PyError RunOutput :=
  let log2 := log ++ [Event.savedReporter layer]
  let lrCount := if cfg.supervised = "none" then 0 else cfg.lrIters
  let log3 := log2 ++ (if cfg.supervised = "none" then [] else [Event.savedLrModels layer])
  let evalT := dss.map (fun ds =>
    (ds.name, ["dataset", "layer", "pseudo_auroc", "train_loss"] ++ toDictKeys))
  let lmT := (dss.filter (fun ds => ds.hasLmPreds)).map (fun ds =>
    (ds.name, ["dataset", "layer"] ++ toDictKeys))
  let lrT := (dss.map (fun ds =>
    (List.range lrCount).map (fun _ =>
      (ds.name, ["inlp_iter", "dataset", "layer"] ++ toDictKeys)))).flatten
  (log3, Except.ok { trainLoss := trainLoss, evalT := evalT, lmT := lmT, lrT := lrT })

/-- `Elicit.apply_to_layer` (`train.py` lines 51–157).  In program order:
seed with `net.seed + layer`; unpack the training dict (empty dict raises);
check every dataset's hidden width against the first; `create_models_dir`
(persists `cfg.yaml`); then the CCS branch (single-task assert, `fit`, the
`unbind(2)` unpacking of train and val which needs `k = 2`, Platt scaling)
or the Eigen branch (`update` per dataset with `num_classes = None`,
`fit_streaming`, Platt scaling on the concatenated flattened tensors); then
the common tail `finishRun`.  The event log is returned alongside, also on
error paths.  The `subgroups` union makes an unknown reporter variant
unrepresentable, so the final `raise ValueError(f"Unknown reporter config
type...")` of the source has no counterpart. -/
def applyToLayer (cfg : ElicitCfg) (layer : ℕ) (dss : List DsInfo) :
    List Event × Except PyError RunOutput :=
  let log0 := [Event.seedSet (cfg.seed + layer)]
  match dss with
  | [] => (log0, Except.error (PyError.valueError "not enough values to unpack"))
  | first :: rest =>
    if rest.all (fun ds => ds.d == first.d) then
      let log1 := log0 ++ [Event.savedConfig]
      if cfg.isCcs then
        match rest with
        | _ :: _ =>
          (log1, Except.error (PyError.assertionError "CCS only supports single-task training"))
        | [] =>
          let log2 := log1 ++ [Event.fitCcs]
          let trainLoss := ccsFitLoss first
          if first.k == 2 then
            if first.valK == 2 then
              finishRun cfg layer dss trainLoss (log2 ++ [Event.plattScaled])
            else
              (log2, Except.error (PyError.valueError "not enough values to unpack"))
          else
            (log2, Except.error (PyError.valueError "not enough values to unpack"))
      else
        let stats := dss.foldl (fun acc ds => eigenUpdate acc ds) eigenInit
        let logU := log1 ++ dss.map (fun ds => Event.updateEigen ds.name)
        let trainLoss := eigenObjective first.d stats
        finishRun cfg layer dss trainLoss
          (logU ++ [Event.fitEigenStreaming, Event.plattScaled])
    else
      (log0, Except.error (PyError.valueError widthMsg))

/-- Substring test on the underlying character lists, used to state whether
an error message mentions a given name. -/
def hasSub (s pat : String) : Bool :=
  (List.range (s.data.length + 1)).any
    (fun i => ((s.data.drop i).take pat.data.length) == pat.data)

/-- Concrete datasets and configs used by witnesses and counterexamples. -/
def dsA : DsInfo := ⟨"imdb", 2, 1, 2, 3, fun _ _ _ _ => 0, 2, true⟩

def dsB : DsInfo := ⟨"boolq", 2, 1, 2, 4, fun _ _ _ _ => 0, 2, true⟩

def dsK2 : DsInfo := ⟨"imdb", 2, 1, 2, 3, fun _ _ _ _ => 0, 2, true⟩

def dsK4 : DsInfo := ⟨"boolq", 2, 1, 4, 3, fun _ _ _ _ => 0, 2, false⟩

def cfgCcs : ElicitCfg := ⟨true, 1, "single", 1⟩

def cfgEigen : ElicitCfg := ⟨false, 0, "single", 1⟩

/-- C7: every layer-job first seeds all randomness with `base seed + layer`
(`make_reproducible(seed=self.net.seed + layer)` is the first statement of
`apply_to_layer`), so the very first logged event on every path — success
or error — is `seedSet (seed + layer)`, and the job is a pure function of
its inputs. -/
theorem per_layer_seed_first (cfg : ElicitCfg) (layer : ℕ) (dss : List DsInfo) :
    (applyToLayer cfg layer dss).1.head? = some (Event.seedSet (cfg.seed + layer)) := by
  rcases dss with _ | ⟨first, rest⟩
  · rfl
  · rcases rest with _ | ⟨r2, rest2⟩ <;>
      simp only [applyToLayer, finishRun] <;>
      split_ifs <;>
      simp

/-- C6 (amended): if any later dataset's hidden width differs from the
first's, the layer-job stops at once with a fatal `ValueError` carrying the
fixed, generic message `widthMsg` (which does not name the offending
datasets), and no partial state is persisted: the log records neither the
config write, nor a reporter checkpoint, nor a baseline-model write. -/
theorem width_mismatch_fatal_no_persist (cfg : ElicitCfg) (layer : ℕ)
    (first : DsInfo) (rest : List DsInfo)
    (hmis : rest.all (fun ds => ds.d == first.d) = false) :
    applyToLayer cfg layer (first :: rest)
      = ([Event.seedSet (cfg.seed + layer)], Except.error (PyError.valueError widthMsg))
    ∧ Event.savedConfig ∉ (applyToLayer cfg layer (first :: rest)).1
    ∧ (∀ l, Event.savedReporter l ∉ (applyToLayer cfg layer (first :: rest)).1)
    ∧ (∀ l, Event.savedLrModels l ∉ (applyToLayer cfg layer (first :: rest)).1) := by
  have h : applyToLayer cfg layer (first :: rest)
      = ([Event.seedSet (cfg.seed + layer)], Except.error (PyError.valueError widthMsg)) := by
    simp [applyToLayer, hmis]
  refine ⟨h, ?_, ?_, ?_⟩ <;> simp [h]

/-- C6 counterexample: with datasets `imdb` (width 3) and `boolq` (width 4)
the job fails, but the error message is the generic `widthMsg`, which does
not mention either offending dataset's name — contrary to the claim that
the report names the offending dataset(s). -/
theorem width_mismatch_counterexample :
    (applyToLayer cfgEigen 0 [dsA, dsB]).2
        = Except.error (PyError.valueError widthMsg)
    ∧ hasSub widthMsg "imdb" = false
    ∧ hasSub widthMsg "boolq" = false := by
  refine ⟨rfl, by decide, by decide⟩

/-- C6 witness: the amended theorem applied to the same concrete width-3 /
width-4 pair. -/
theorem width_mismatch_fatal_no_persist_witness :
    applyToLayer cfgEigen 0 [dsA, dsB]
      = ([Event.seedSet 0], Except.error (PyError.valueError widthMsg))
    ∧ Event.savedConfig ∉ (applyToLayer cfgEigen 0 [dsA, dsB]).1 := by
  obtain ⟨h1, h2, -, -⟩ :=
    width_mismatch_fatal_no_persist cfgEigen 0 dsA [dsB] (by decide)
  exact ⟨h1, h2⟩

/-- C1: with the CCS reporter variant, a training dict with more than one
dataset key makes the layer-job fail (a fatal error, with no `fit` ever
performed), while with exactly one dataset key the CCS fit is reached. -/
theorem ccs_single_task_gate (cfg : ElicitCfg) (hccs : cfg.isCcs = true)
    (layer : ℕ) (dss : List DsInfo) :
    (1 < dss.length →
        (applyToLayer cfg layer dss).2.isOk = false
          ∧ Event.fitCcs ∉ (applyToLayer cfg layer dss).1)
    ∧ (dss.length = 1 → Event.fitCcs ∈ (applyToLayer cfg layer dss).1) := by
  rcases dss with _ | ⟨first, rest⟩
  · simp
  · rcases rest with _ | ⟨r2, rest2⟩
    · refine ⟨by simp, fun _ => ?_⟩
      simp only [applyToLayer, hccs, finishRun]
      split_ifs <;> simp_all
    · refine ⟨fun _ => ?_, by simp⟩
      by_cases hw : (r2 :: rest2).all (fun ds => ds.d == first.d)
      · simp [applyToLayer, hccs, hw, Except.isOk, Except.toBool]
      · simp [applyToLayer, hccs, hw, Except.isOk, Except.toBool]

/-- C1 witness: two datasets under CCS fail without fitting; one dataset
under CCS reaches the fit. -/
theorem ccs_single_task_gate_witness :
    ((applyToLayer cfgCcs 0 [dsA, dsB]).2.isOk = false
      ∧ Event.fitCcs ∉ (applyToLayer cfgCcs 0 [dsA, dsB]).1)
    ∧ Event.fitCcs ∈ (applyToLayer cfgCcs 0 [dsK2]).1 := by
  exact ⟨(ccs_single_task_gate cfgCcs rfl 0 [dsA, dsB]).1 (by decide),
         (ccs_single_task_gate cfgCcs rfl 0 [dsK2]).2 rfl⟩

/-- C2: the Eigen path accepts any list of datasets sharing hidden width
`D`, with arbitrary — in particular pairwise different — numbers of answer
choices `K` and `num_classes` left `None`: every dataset is folded by
`update`, `fit_streaming` runs, and the job completes without raising. -/
theorem eigen_hetero_k_ok (cfg : ElicitCfg) (hccs : cfg.isCcs = false)
    (layer : ℕ) (first : DsInfo) (rest : List DsInfo)
    (hw : rest.all (fun ds => ds.d == first.d) = true) :
    (applyToLayer cfg layer (first :: rest)).2.isOk = true
    ∧ Event.fitEigenStreaming ∈ (applyToLayer cfg layer (first :: rest)).1
    ∧ ∀ ds ∈ first :: rest,
        Event.updateEigen ds.name ∈ (applyToLayer cfg layer (first :: rest)).1 := by
  refine ⟨?_, ?_, ?_⟩ <;>
    simp only [applyToLayer, hccs, hw, finishRun, if_true, Bool.false_eq_true, if_false]
  · rfl
  · simp
  · intro ds hds
    simp only [List.mem_append, List.mem_map]
    exact Or.inl (Or.inl (Or.inl (Or.inr ⟨ds, hds, rfl⟩)))

/-- C2 witness: two width-3 datasets with `K = 2` and `K = 4` complete the
Eigen path (cf. spec §8's end-to-end requirement). -/
theorem eigen_hetero_k_ok_witness :
    (applyToLayer cfgEigen 0 [dsK2, dsK4]).2.isOk = true
    ∧ Event.updateEigen dsK2.name ∈ (applyToLayer cfgEigen 0 [dsK2, dsK4]).1
    ∧ Event.updateEigen dsK4.name ∈ (applyToLayer cfgEigen 0 [dsK2, dsK4]).1 := by
  obtain ⟨h1, _, h3⟩ := eigen_hetero_k_ok cfgEigen rfl 0 dsK2 [dsK4] (by decide)
  exact ⟨h1, h3 dsK2 (by simp), h3 dsK4 (by simp)⟩

/-!
### `BurnsNorm.forward` (`src/elk/training/burns_norm.py`)

The input has shape `(N, V, ...)`; the statistic axis is `N` (index `i`),
the preserved variant axis is `V` (index `a`), and all trailing axes are
flattened into one index `p < r`, which is faithful because the source only
reduces over dim 0 (the norm) and over all of dims `1..` of `std` at once
(the mean).  Float arithmetic is modelled exactly over `ℝ`; `t / 0 = 0`
stands in for the float `nan`/`inf` of a zero denominator.
-/

/-- `x_normalized = x - x.mean(dim=0)`. -/
noncomputable def burnsCentered (n : ℕ) (x : ℕ → ℕ → ℕ → ℝ) (i a p : ℕ) : ℝ :=
  x i a p - (∑ j ∈ Finset.range n, x j a p) / n

/-- Per-cell root-mean-square size over the leading axis:
`torch.linalg.norm(y, dim=0) / sqrt(n)`. -/
noncomputable def rmsOverN (n : ℕ) (y : ℕ → ℕ → ℕ → ℝ) (a p : ℕ) : ℝ :=
  Real.sqrt (∑ i ∈ Finset.range n, (y i a p) ^ 2) / Real.sqrt n

/-- `std = torch.linalg.norm(x_normalized, dim=0) / sqrt(n)`. -/
noncomputable def burnsStd (n : ℕ) (x : ℕ → ℕ → ℕ → ℝ) (a p : ℕ) : ℝ :=
  rmsOverN n (burnsCentered n x) a p

/-- `avg_norm = std.mean(dim=(1, ..., std.dim()-1))`: one scale per variant
index `a`, averaging `std` over every axis except the variant axis. -/
noncomputable def burnsAvgNorm (n r : ℕ) (x : ℕ → ℕ → ℕ → ℝ) (a : ℕ) : ℝ :=
  (∑ p ∈ Finset.range r, burnsStd n x a p) / r

/-- The returned tensor: `x_normalized / avg_norm if self.scale else
x_normalized` (the two `unsqueeze` calls are the broadcast over `i` and
`p`, which indexing makes implicit here). -/
noncomputable def burnsNorm (n r : ℕ) (x : ℕ → ℕ → ℕ → ℝ) (scale : Bool)
    (i a p : ℕ) : ℝ :=
  if scale then burnsCentered n x i a p / burnsAvgNorm n r x a
  else burnsCentered n x i a p

/-- `BurnsNorm.forward` with its only runtime check, the shape assertion
`assert std.dim() == x.dim() - 1`: with shapes `(n, v, trailing)` flattened
to rank 3 here, `std` has rank 2, so the check compares `2` with `3 - 1`
and never fails.  The source contains no other raise and in particular no
check on `n`. -/
noncomputable def burnsForward (n r : ℕ) (x : ℕ → ℕ → ℕ → ℝ) (scale : Bool) :
    Except PyError (ℕ → ℕ → ℕ → ℝ) :=
  if 2 = 3 - 1 then Except.ok (burnsNorm n r x scale)
  else Except.error (PyError.assertionError "std dim")

/-- C3: for `N ≥ 2`, at every remaining position the mean over the leading
axis of the Normalizer's output is exactly zero, with or without scaling —
centering subtracts the per-position mean over `N`. -/
theorem burns_norm_centering (n r : ℕ) (x : ℕ → ℕ → ℕ → ℝ) (hn : 2 ≤ n)
    (scale : Bool) (a p : ℕ) :
    (∑ i ∈ Finset.range n, burnsNorm n r x scale i a p) / n = 0 := by
  have hn0 : (n : ℝ) ≠ 0 := Nat.cast_ne_zero.mpr (by omega)
  have hc : ∑ i ∈ Finset.range n, burnsCentered n x i a p = 0 := by
    simp only [burnsCentered, Finset.sum_sub_distrib, Finset.sum_const,
      Finset.card_range, nsmul_eq_mul]
    field_simp
  cases scale <;> simp [burnsNorm, hc, ← Finset.sum_div]

/-- C3 witness: the centering theorem at `n = 2`, `v = 1`, one trailing
position, on a concrete constant input. -/
theorem burns_norm_centering_witness :
    (∑ i ∈ Finset.range 2, burnsNorm 2 1 (fun _ _ _ => 5) true i 0 0) / 2 = 0
    ∧ (∑ i ∈ Finset.range 2, burnsNorm 2 1 (fun _ _ _ => 5) false i 0 0) / 2 = 0 :=
  ⟨burns_norm_centering 2 1 (fun _ _ _ => 5) (by norm_num) true 0 0,
   burns_norm_centering 2 1 (fun _ _ _ => 5) (by norm_num) false 0 0⟩

/-- C4 (amended): with scaling enabled and `N ≥ 2`, for each variant index
whose average scale is nonzero (some cell varies over `N`), the average
over the remaining positions of the per-cell RMS over `N` of the output is
exactly 1.  (For a variant constant over `N` the scale is zero and the
scaled output is degenerate — `nan` in the source — so the hypothesis
`burnsAvgNorm ≠ 0` is necessary; see the counterexample.) -/
theorem burns_norm_scale_avg (n r : ℕ) (x : ℕ → ℕ → ℕ → ℝ) (a : ℕ)
    (hn : 2 ≤ n) (hr : 0 < r) (hA : burnsAvgNorm n r x a ≠ 0) :
    (∑ p ∈ Finset.range r, rmsOverN n (burnsNorm n r x true) a p) / r = 1 := by
  have hA0 : 0 ≤ burnsAvgNorm n r x a := by
    unfold burnsAvgNorm burnsStd rmsOverN
    positivity
  have hstep : ∀ p, rmsOverN n (burnsNorm n r x true) a p
      = burnsStd n x a p / burnsAvgNorm n r x a := by
    intro p
    unfold rmsOverN burnsNorm burnsStd rmsOverN
    simp only [if_true, div_pow, ← Finset.sum_div]
    rw [Real.sqrt_div (by positivity) ((burnsAvgNorm n r x a) ^ 2),
      Real.sqrt_sq hA0, div_right_comm]
  rw [Finset.sum_congr rfl (fun p _ => hstep p), ← Finset.sum_div, div_right_comm]
  rw [show (∑ p ∈ Finset.range r, burnsStd n x a p) / (r : ℝ)
      = burnsAvgNorm n r x a from rfl]
  exact div_self hA

/-- A concrete input that is constant over the leading axis. -/
noncomputable def xConst : ℕ → ℕ → ℕ → ℝ := fun _ _ _ => 5

/-- A concrete input with values `0` and `2` along the leading axis, whose
per-variant average scale is exactly 1. -/
noncomputable def x01 : ℕ → ℕ → ℕ → ℝ := fun i _ _ => if i = 0 then 0 else 2

/-- C4 counterexample: on a tensor constant over `N` (with `N = 2 ≥ 2` and
scaling enabled) the centered tensor is zero, the scale is `0`, and the
average RMS of the output is `0`, not `1` — the claim fails without a
nondegeneracy hypothesis. -/
theorem burns_norm_scale_avg_counterexample :
    (∑ p ∈ Finset.range 1, rmsOverN 2 (burnsNorm 2 1 xConst true) 0 p) / 1 ≠ 1 := by
  have hc : ∀ i p, burnsCentered 2 xConst i 0 p = 0 := by
    intro i p
    simp [burnsCentered, xConst, Finset.sum_range_succ]
  have hstd : ∀ p, burnsStd 2 xConst 0 p = 0 := by
    intro p
    simp [burnsStd, rmsOverN, hc]
  have hA : burnsAvgNorm 2 1 xConst 0 = 0 := by
    simp [burnsAvgNorm, hstd]
  have hy : ∀ p, rmsOverN 2 (burnsNorm 2 1 xConst true) 0 p = 0 := by
    intro p
    simp [rmsOverN, burnsNorm, hc, hA]
  simp [hy]

/-- C4 witness: the amended theorem at the concrete input `x01`, whose
average scale is 1 (so the hypothesis is satisfiable and the average RMS of
the output is 1). -/
theorem burns_norm_scale_avg_witness :
    burnsAvgNorm 2 1 x01 0 ≠ 0
    ∧ (∑ p ∈ Finset.range 1, rmsOverN 2 (burnsNorm 2 1 x01 true) 0 p) / 1 = 1 := by
  have hc0 : burnsCentered 2 x01 0 0 0 = -1 := by
    simp [burnsCentered, x01, Finset.sum_range_succ]
  have hc1 : burnsCentered 2 x01 1 0 0 = 1 := by
    simp [burnsCentered, x01, Finset.sum_range_succ]
    norm_num
  have hA : burnsAvgNorm 2 1 x01 0 = 1 := by
    simp [burnsAvgNorm, burnsStd, rmsOverN, Finset.sum_range_succ, hc0, hc1]
    norm_num
  have hA' : burnsAvgNorm 2 1 x01 0 ≠ 0 := by
    rw [hA]; norm_num
  refine ⟨hA', ?_⟩
  have h := burns_norm_scale_avg 2 1 x01 0 (by norm_num) (by norm_num) hA'
  simpa using h

/-- C5 (amended): the Normalizer does not fail for `N = 1`: the forward
pass returns normally (its only assert is the always-true rank check), the
centered output is identically zero, and the computed scale is `0` — so
with scaling enabled the division is degenerate (`0/0`), not an error. -/
theorem burns_norm_small_n (r : ℕ) (x : ℕ → ℕ → ℕ → ℝ) :
    (burnsForward 1 r x false).isOk = true
    ∧ ∀ a p, burnsCentered 1 x 0 a p = 0 ∧ burnsAvgNorm 1 r x a = 0 := by
  refine ⟨rfl, fun a p => ?_⟩
  have hstd : ∀ p', burnsStd 1 x a p' = 0 := by
    intro p'
    simp [burnsStd, rmsOverN, burnsCentered]
  exact ⟨by simp [burnsCentered], by simp [burnsAvgNorm, hstd]⟩

/-- C5 counterexample: at a concrete `N = 1` input the forward pass returns
a result (the zero tensor before scaling) instead of raising — the claimed
failure for `N < 2` does not happen. -/
theorem burns_norm_small_n_counterexample :
    (burnsForward 1 1 xConst false).isOk = true
    ∧ burnsNorm 1 1 xConst false 0 0 0 = 0 := by
  exact ⟨rfl, by simp [burnsNorm, burnsCentered]⟩

/-!
### The result tables of a completed layer-job (claim C8)
-/

/-- The row-shape invariant of the tables a completed layer-job returns:
every row of every table carries `dataset`, `layer`, `accuracy` and
`auroc`; `eval` rows additionally carry `pseudo_auroc` and `train_loss`;
`lr_eval` rows additionally carry `inlp_iter`. -/
def RowsWellFormed (o : RunOutput) : Prop :=
  (∀ row ∈ o.evalT ++ o.lmT ++ o.lrT,
      "dataset" ∈ row.2 ∧ "layer" ∈ row.2 ∧ "accuracy" ∈ row.2 ∧ "auroc" ∈ row.2)
  ∧ (∀ row ∈ o.evalT, "pseudo_auroc" ∈ row.2 ∧ "train_loss" ∈ row.2)
  ∧ (∀ row ∈ o.lrT, "inlp_iter" ∈ row.2)

/-- Any successful `finishRun` yields well-formed rows, and the `lm_eval`
table has exactly one row per dataset whose LM predictions were provided,
in dataset order. -/
theorem finishRun_ok_shape (cfg : ElicitCfg) (layer : ℕ) (dss : List DsInfo)
    (tl : ℚ) (log : List Event) (out : RunOutput)
    (h : (finishRun cfg layer dss tl log).2 = Except.ok out) :
    RowsWellFormed out
    ∧ out.lmT.map Prod.fst = (dss.filter (fun ds => ds.hasLmPreds)).map DsInfo.name := by
  simp only [finishRun] at h
  obtain rfl := (Except.ok.inj h).symm
  refine ⟨⟨?_, ?_, ?_⟩, ?_⟩
  · intro row hrow
    simp only [List.mem_append, List.mem_map, List.mem_filter, List.mem_flatten] at hrow
    rcases hrow with (⟨ds, _, rfl⟩ | ⟨ds, _, rfl⟩) | ⟨inner, ⟨ds, _, rfl⟩, hrow⟩
    · simp [toDictKeys]
    · simp [toDictKeys]
    · simp only [List.mem_map] at hrow
      obtain ⟨_, _, rfl⟩ := hrow
      simp [toDictKeys]
  · intro row hrow
    simp only [List.mem_map] at hrow
    obtain ⟨ds, _, rfl⟩ := hrow
    simp
  · intro row hrow
    simp only [List.mem_flatten, List.mem_map] at hrow
    obtain ⟨inner, ⟨ds, _, rfl⟩, hrow⟩ := hrow
    simp only [List.mem_map] at hrow
    obtain ⟨_, _, rfl⟩ := hrow
    simp
  · simp [List.map_map, Function.comp]

/-- C8 (amended): every row of every table of a completed layer-job carries
`dataset`, `layer`, `accuracy` and `auroc`; `eval` rows additionally carry
`pseudo_auroc` and `train_loss`; `lr_eval` rows additionally carry
`inlp_iter`; and the `lm_eval` table has exactly one row per dataset whose
upstream LM predictions were provided.  (`train_loss` is *not* carried by
`lm_eval` or `lr_eval` rows; see the counterexample.) -/
theorem result_rows_fields (cfg : ElicitCfg) (layer : ℕ) (dss : List DsInfo)
    (out : RunOutput) (h : (applyToLayer cfg layer dss).2 = Except.ok out) :
    RowsWellFormed out
    ∧ out.lmT.map Prod.fst = (dss.filter (fun ds => ds.hasLmPreds)).map DsInfo.name := by
  rcases dss with _ | ⟨first, rest⟩
  · simp [applyToLayer] at h
  · by_cases hw : rest.all (fun ds => ds.d == first.d) = true
    · by_cases hc : cfg.isCcs = true
      · rcases rest with _ | ⟨r2, rest2⟩
        · simp only [applyToLayer, hw, hc, if_true] at h
          split_ifs at h with h1 h2
          exact finishRun_ok_shape _ _ _ _ _ _ h
        · simp [applyToLayer, hw, hc] at h
      · simp only [applyToLayer, hw, hc, if_true, Bool.false_eq_true, if_false,
          Bool.not_eq_true] at h
        exact finishRun_ok_shape _ _ _ _ _ _ h
    · simp [applyToLayer, hw] at h

/-- The concrete output of the Eigen run on the single dataset `dsK2`. -/
def outW : RunOutput :=
  { trainLoss := 0
    evalT := [("imdb", ["dataset", "layer", "pseudo_auroc", "train_loss", "accuracy", "auroc"])]
    lmT := [("imdb", ["dataset", "layer", "accuracy", "auroc"])]
    lrT := [("imdb", ["inlp_iter", "dataset", "layer", "accuracy", "auroc"])] }

/-- C8 counterexample: a completed layer-job (Eigen, one dataset with LM
predictions provided) whose `lm_eval` table has exactly one row, and that
row does **not** carry `train_loss` — so not every row of every table
carries `train_loss`, contrary to the claim. -/
theorem result_rows_counterexample :
    (applyToLayer cfgEigen 0 [dsK2]).2.map
        (fun o => o.lmT.map (fun row => row.2.contains "train_loss"))
      = Except.ok [false] := by
  rfl

/-- C8 witness: the amended theorem applied to the same concrete completed
run. -/
theorem result_rows_fields_witness :
    (applyToLayer cfgEigen 0 [dsK2]).2 = Except.ok outW ∧ RowsWellFormed outW := by
  have h : (applyToLayer cfgEigen 0 [dsK2]).2 = Except.ok outW := by
    simp only [applyToLayer, finishRun, cfgEigen, dsK2, outW]
    norm_num [Except.ok.injEq, RunOutput.mk.injEq, toDictKeys, eigenObjective,
      eigenUpdate, eigenInit, interBatch, intraBatch, classMean, batchMean,
      variantMean, Finset.sum_range_succ]
    decide
  exact ⟨h, (result_rows_fields cfgEigen 0 [dsK2] outW h).1⟩

/-!
### `_convert_to_prompts` (`src/elk/extraction/prompt_loading.py`)

The function processes one example.  Its label value is a `String ⊕ ℕ`
(`labels_are_strings` in the source); the templates given are the ones
selected for the example (the upstream `rng.sample` selection is the
caller's).  Jinja rendering is external, so a template is modelled by the
result of `template.apply` on the example with its label field overwritten.
String scanning is modelled on the underlying character lists.
-/

/-- A prompt template as seen by `_convert_to_prompts` for one fixed
example: its name, `get_answer_choices_list(example)`, and the rendering
`template.apply(fake_example)` as a function of the overwritten label
value. -/
structure PTemplate where
  name : String
  choices : List String
  applyT : String ⊕ ℕ → String × String

/-- `q[-1].isspace()` guarded by `not q` (false on the empty string). -/
def strBackIsSpace (s : String) : Bool :=
  match s.data.getLast? with
  | some c => c.isWhitespace
  | none => false

/-- `a[0].isspace()` guarded by `not a` (false on the empty string). -/
def strFrontIsSpace (s : String) : Bool :=
  match s.data.head? with
  | some c => c.isWhitespace
  | none => false

/-- `qa_cat(q, a)`: join with a single space unless the seam already has
whitespace (or one side is empty); keep only `q` when `a` is empty or
all-whitespace (`if a and not a.isspace()`). -/
def qaCat (q a : String) : String :=
  let sep :=
    if q = "" ∨ strBackIsSpace q ∨ a = "" ∨ strFrontIsSpace a then "" else " "
  if a ≠ "" ∧ a.data.any (fun c => !c.isWhitespace) then q ++ sep ++ a else q

/-- The label index one template induces:
`string_choices.index(label) if labels_are_strings else label`
(Python's `list.index` raises `ValueError` when the value is absent). -/
def labelIdxOf (choices : List String) (label : String ⊕ ℕ) : Except PyError ℕ :=
  match label with
  | Sum.inl s =>
    match choices.findIdx? (fun c => c == s) with
    | some i => Except.ok i
    | none => Except.error (PyError.valueError "is not in list")
  | Sum.inr i => Except.ok i

/-- Sequential effectful map over a list: a Python `for` loop collecting
results and stopping at the first raised exception. -/
def mapMExcept (f : α → Except PyError β) : List α → Except PyError (List β)
  | [] => Except.ok []
  | x :: xs =>
    match f x with
    | Except.error e => Except.error e
    | Except.ok y =>
      match mapMExcept f xs with
      | Except.error e => Except.error e
      | Except.ok ys => Except.ok (y :: ys)

/-- One `answer_idx` iteration of the inner loop of `_convert_to_prompts`:
build the fake label (string datasets copy `string_choices[answer_idx]`,
an out-of-range index raising `IndexError`), render the template, and form
`qa_cat(q, a or string_choices[answer_idx])`. -/
def promptText (t : PTemplate) (labelIsStr : Bool) (idx : ℕ) :
    Except PyError String :=
  match
    (if labelIsStr then
        match t.choices[idx]? with
        | some s => Except.ok (Sum.inl s)
        | none => Except.error PyError.indexError
      else Except.ok (Sum.inr idx) : Except PyError (String ⊕ ℕ)) with
  | Except.error e => Except.error e
  | Except.ok fake =>
    let qa := t.applyT fake
    match
      (if qa.2 = "" then
          match t.choices[idx]? with
          | some s => Except.ok s
          | none => Except.error PyError.indexError
        else Except.ok qa.2 : Except PyError String) with
    | Except.error e => Except.error e
    | Except.ok a2 => Except.ok (qaCat qa.1 a2)

/-- One outer-loop iteration of `_convert_to_prompts`: record the label
index this template induces, then generate its `num_classes` prompt
texts. -/
def processTemplate (label : String ⊕ ℕ) (numClasses : ℕ) (t : PTemplate) :
    Except PyError (ℕ × List String) :=
  match labelIdxOf t.choices label with
  | Except.error e => Except.error e
  | Except.ok idx =>
    match mapMExcept (promptText t label.isLeft) (List.range numClasses) with
    | Except.error e => Except.error e
    | Except.ok texts => Except.ok (idx, texts)

/-- The dict `_convert_to_prompts` returns. -/
structure ConvResult where
  label : ℕ
  prompts : List (List String)
  templateNames : List String
deriving DecidableEq

/-- `_convert_to_prompts`: per-template processing, then the
duplicate-prompt sanity check (`counter.most_common(1)` on an empty
counter raises the unpack `ValueError`; a repeated text raises `"Prompt
duplicated"`), then the label-consistency check, then the returned dict
whose `label` is the set's single element (`set.pop` on an empty set —
unreachable past the earlier checks — is Python's `KeyError`). -/
def convertToPrompts (templates : List PTemplate) (label : String ⊕ ℕ)
    (numClasses : ℕ) : Except PyError ConvResult :=
  match mapMExcept (processTemplate label numClasses) templates with
  | Except.error e => Except.error e
  | Except.ok pairs =>
    let idxs := pairs.map Prod.fst
    let texts := (pairs.map Prod.snd).flatten
    if texts = [] then
      Except.error (PyError.valueError "not enough values to unpack")
    else if ¬ texts.Nodup then
      Except.error (PyError.valueError "Prompt duplicated")
    else if 1 < idxs.dedup.length then
      Except.error (PyError.valueError "Label index should be the same all variants")
    else
      match idxs.dedup with
      | [i] => Except.ok ⟨i, pairs.map Prod.snd, templates.map PTemplate.name⟩
      | _ => Except.error PyError.keyError

/-- The label indices the selected templates induce (`label_indices` of the
source, in template order, before deduplication). -/
def inducedIdxs (templates : List PTemplate) (label : String ⊕ ℕ) : List ℕ :=
  templates.filterMap (fun t => (labelIdxOf t.choices label).toOption)

/-- Is this result a raised `ValueError`? -/
def isValueError : Except PyError α → Bool
  | Except.error (PyError.valueError _) => true
  | _ => false

theorem processTemplate_ok_label {label : String ⊕ ℕ} {nc : ℕ} {t : PTemplate}
    {p : ℕ × List String} (h : processTemplate label nc t = Except.ok p) :
    labelIdxOf t.choices label = Except.ok p.1 := by
  unfold processTemplate at h
  cases hf : labelIdxOf t.choices label with
  | error e => rw [hf] at h; cases h
  | ok idx =>
    rw [hf] at h
    cases hm : mapMExcept (promptText t label.isLeft) (List.range nc) with
    | error e => rw [hm] at h; cases h
    | ok texts =>
      rw [hm] at h
      cases h
      rfl

theorem pairs_fst_eq_induced {label : String ⊕ ℕ} {nc : ℕ} :
    ∀ {templates : List PTemplate} {pairs : List (ℕ × List String)},
      mapMExcept (processTemplate label nc) templates = Except.ok pairs →
      pairs.map Prod.fst = inducedIdxs templates label := by
  intro templates
  induction templates with
  | nil =>
    intro pairs h
    simp only [mapMExcept] at h
    cases h
    simp [inducedIdxs]
  | cons t ts ih =>
    intro pairs h
    simp only [mapMExcept] at h
    cases hf : processTemplate label nc t with
    | error e => rw [hf] at h; cases h
    | ok y =>
      rw [hf] at h
      cases hm : mapMExcept (processTemplate label nc) ts with
      | error e => rw [hm] at h; cases h
      | ok ys =>
        rw [hm] at h
        cases h
        have hl := processTemplate_ok_label hf
        simp only [List.map_cons, inducedIdxs, List.filterMap_cons, hl,
          Except.toOption]
        exact congrArg (List.cons y.1) (ih hm)

/-- C9 (amended): provided the per-template processing itself raises
nothing, `_convert_to_prompts` raises a `ValueError` whenever the selected
templates induce more than one label index; and whenever it returns
successfully, the returned `label` is the single label index all selected
templates induce.  (A successful return additionally requires the generated
prompt texts to be nonempty and duplicate-free: duplicated prompts raise a
`ValueError` even when the label index is unique — see the
counterexample.) -/
theorem convert_prompts_label (templates : List PTemplate) (label : String ⊕ ℕ)
    (numClasses : ℕ)
    (hok : (mapMExcept (processTemplate label numClasses) templates).isOk = true) :
    (1 < (inducedIdxs templates label).dedup.length →
        isValueError (convertToPrompts templates label numClasses) = true)
    ∧ ∀ res, convertToPrompts templates label numClasses = Except.ok res →
        (inducedIdxs templates label).dedup = [res.label] := by
  cases hm : mapMExcept (processTemplate label numClasses) templates with
  | error e => rw [hm] at hok; simp [Except.isOk, Except.toBool] at hok
  | ok pairs =>
    have hfst : pairs.map Prod.fst = inducedIdxs templates label :=
      pairs_fst_eq_induced hm
    constructor
    · intro hgt
      simp only [convertToPrompts, hm]
      by_cases h1 : (pairs.map Prod.snd).flatten = []
      · simp [h1, isValueError]
      · by_cases h2 : ((pairs.map Prod.snd).flatten).Nodup
        · by_cases h3 : 1 < (pairs.map Prod.fst).dedup.length
          · simp [h1, h2, h3, isValueError]
          · rw [hfst] at h3
            exact absurd hgt h3
        · simp [h1, h2, isValueError]
    · intro res hres
      simp only [convertToPrompts, hm] at hres
      by_cases h1 : (pairs.map Prod.snd).flatten = []
      · rw [if_pos h1] at hres
        cases hres
      · rw [if_neg h1] at hres
        by_cases h2 : ((pairs.map Prod.snd).flatten).Nodup
        · rw [if_neg (by simpa using h2)] at hres
          by_cases h3 : 1 < (pairs.map Prod.fst).dedup.length
          · rw [if_pos h3] at hres
            cases hres
          · rw [if_neg h3] at hres
            rw [← hfst]
            cases hd : (pairs.map Prod.fst).dedup with
            | nil => rw [hd] at hres; cases hres
            | cons i tl =>
              cases tl with
              | nil =>
                rw [hd] at hres
                cases hres
                rfl
              | cons j tl2 => rw [hd] at hres; cases hres
        · rw [if_pos (by simpa using h2)] at hres
          cases hres

/-- Two identical copies of this template generate identical prompt texts. -/
def tDup : PTemplate :=
  ⟨"t", ["no", "yes"],
    fun v => ("Q", match v with
      | Sum.inl s => s
      | Sum.inr i => if i = 0 then "no" else "yes")⟩

/-- A template rendering distinct texts with prefix `QA`. -/
def tA : PTemplate :=
  ⟨"a", ["no", "yes"],
    fun v => ("QA", match v with
      | Sum.inl s => s
      | Sum.inr i => if i = 0 then "x0" else "x1")⟩

/-- A template rendering distinct texts with prefix `QB`. -/
def tB : PTemplate :=
  ⟨"b", ["no", "yes"],
    fun v => ("QB", match v with
      | Sum.inl s => s
      | Sum.inr i => if i = 0 then "y0" else "y1")⟩

/-- A template whose answer choices are listed in the opposite order, so a
string label induces a different label index than `tA` does. -/
def tC : PTemplate :=
  ⟨"c", ["yes", "no"],
    fun v => ("QC", match v with
      | Sum.inl s => s
      | Sum.inr i => if i = 0 then "z0" else "z1")⟩

/-- C9 counterexample: two selected templates that agree on the (unique)
label index but render identical prompt texts — `_convert_to_prompts`
raises the duplicate-prompt `ValueError` instead of returning the dict
with the unique label, so "otherwise it returns ..." fails as stated. -/
theorem convert_prompts_counterexample :
    convertToPrompts [tDup, tDup] (Sum.inr 0) 2
        = Except.error (PyError.valueError "Prompt duplicated")
    ∧ (inducedIdxs [tDup, tDup] (Sum.inr 0)).dedup = [0] := by
  exact ⟨by decide, by decide⟩

/-- The successful result on templates `tA`, `tB` with integer label 1. -/
def resW : ConvResult :=
  ⟨1, [["QA x0", "QA x1"], ["QB y0", "QB y1"]], ["a", "b"]⟩

/-- C9 witness: the amended theorem applied once to a two-template input
with conflicting induced indices (raising a `ValueError`) and once to a
clean two-template input (returning label index 1). -/
theorem convert_prompts_label_witness :
    isValueError (convertToPrompts [tA, tC] (Sum.inl "yes") 2) = true
    ∧ (inducedIdxs [tA, tB] (Sum.inr 1)).dedup = [resW.label] := by
  exact ⟨(convert_prompts_label [tA, tC] (Sum.inl "yes") 2 (by decide)).1 (by decide),
         (convert_prompts_label [tA, tB] (Sum.inr 1) 2 (by decide)).2 resW (by decide)⟩

/-!
### `load_prompts` (`src/elk/extraction/prompt_loading.py`)

The loading loop resolves the class count (`num_classes = num_classes or
infer_num_classes(...)`, a running fold), checks all per-dataset counts
agree, resolves the number of variants against the smallest template pool
and asserts it positive, then iterates `for ... in cycle(zip(ds_iters,
datasets, ...))`, yielding one converted example per dataset in turn and
returning at the first `StopIteration`.  The balanced sampler's stream is
modelled as the finite list of examples it yields; `_convert_to_prompts`
with its prompter, rng state and counts is abstracted as a per-example
function `conv`; the `builder_name`/`config_name` attached to each yielded
record is modelled as the dataset's position. -/

/-- One input dataset as `load_prompts` sees it after loading and
shuffling. -/
structure PromptDataset (α : Type) where
  name : String
  inferredClasses : ℕ
  numTemplates : ℕ
  examples : List α

/-- One pass of the cycle over the dataset iterators in order: collect one
element from each; at the first exhausted iterator stop mid-pass, keeping
the elements already yielded (`none` marks the stop, `some tails` the
advanced iterators). -/
def rrRound : List (List α) → List α × Option (List (List α))
  | [] => ([], some [])
  | [] :: _ => ([], none)
  | (x :: t) :: rest =>
    match rrRound rest with
    | (out, some tails) => (x :: out, some (t :: tails))
    | (out, none) => (x :: out, none)

/-- Minimum of a list of numbers, `0` for the empty list. -/
def minLenN : List ℕ → ℕ
  | [] => 0
  | [n] => n
  | n :: n2 :: rest => min n (minLenN (n2 :: rest))

/-- The minimum number of remaining examples over a family of iterators. -/
def minLen (dss : List (List α)) : ℕ := minLenN (dss.map List.length)

/-- The scan loop of `load_prompts`: repeat `rrRound` passes until one
iterator is exhausted.  `minLen dss + 1` passes always suffice: pass `r`
reads element index `r - 1` of every iterator, so the loop stops during
pass `minLen + 1` at the first iterator holding exactly `minLen` examples —
the fuel is a termination device and is never exhausted before the stop. -/
def rrFuel : ℕ → List (List α) → List α
  | 0, _ => []
  | _ + 1, [] => []
  | fuel + 1, l :: rest =>
    match rrRound (l :: rest) with
    | (out, none) => out
    | (out, some tails) => out ++ rrFuel fuel tails

/-- The example sequence the cycle loop yields. -/
def roundRobin (dss : List (List α)) : List α := rrFuel (minLen dss + 1) dss

theorem rrRound_some_spec : ∀ {dss tails : List (List α)} {out : List α},
    rrRound dss = (out, some tails) →
    out.length = dss.length ∧ tails.length = dss.length
    ∧ ∀ p (hp : p < dss.length), ∃ (hpo : p < out.length) (hpt : p < tails.length),
        dss.get ⟨p, hp⟩ = out.get ⟨p, hpo⟩ :: tails.get ⟨p, hpt⟩ := by
  intro dss
  induction dss with
  | nil =>
    intro tails out h
    have h2 : ((([] : List α), some ([] : List (List α))) :
        List α × Option (List (List α))) = (out, some tails) := h
    injection h2 with ha hb
    injection hb with hb
    subst ha
    subst hb
    exact ⟨rfl, rfl, fun p hp => absurd hp (by simp)⟩
  | cons l rest ih =>
    intro tails out h
    cases l with
    | nil =>
      have h2 : ((([] : List α), (none : Option (List (List α)))) :
          List α × Option (List (List α))) = (out, some tails) := h
      injection h2 with ha hb
      exact Option.noConfusion hb
    | cons x t =>
      have he : rrRound ((x :: t) :: rest)
          = (match rrRound rest with
             | (o, some ts) => (x :: o, some (t :: ts))
             | (o, none) => (x :: o, none)) := rfl
      rw [he] at h
      cases hr : rrRound rest with
      | mk out2 opt =>
        rw [hr] at h
        cases opt with
        | none => exact Option.noConfusion (congrArg Prod.snd h)
        | some tails2 =>
          injection h with ha hb
          injection hb with hb
          subst ha
          subst hb
          obtain ⟨h1, h2, h3⟩ := ih hr
          refine ⟨by simp [h1], by simp [h2], ?_⟩
          intro p hp
          cases p with
          | zero => exact ⟨by simp, by simp, rfl⟩
          | succ q =>
            have hq : q < rest.length := by simpa using hp
            obtain ⟨hqo, hqt, heq⟩ := h3 q hq
            exact ⟨by simpa using hqo, by simpa using hqt, heq⟩

theorem rrRound_none_spec : ∀ {dss : List (List α)} {out : List α},
    rrRound dss = (out, none) →
    (∃ hlt : out.length < dss.length, dss.get ⟨out.length, hlt⟩ = [])
    ∧ ∀ p (hp : p < out.length), ∃ (hpd : p < dss.length) (tl : List α),
        dss.get ⟨p, hpd⟩ = out.get ⟨p, hp⟩ :: tl := by
  intro dss
  induction dss with
  | nil =>
    intro out h
    have h2 : ((([] : List α), some ([] : List (List α))) :
        List α × Option (List (List α))) = (out, none) := h
    injection h2 with ha hb
    exact Option.noConfusion hb
  | cons l rest ih =>
    intro out h
    cases l with
    | nil =>
      have h2 : ((([] : List α), (none : Option (List (List α)))) :
          List α × Option (List (List α))) = (out, none) := h
      injection h2 with ha hb
      subst ha
      exact ⟨⟨by simp, rfl⟩, fun p hp => absurd hp (by simp)⟩
    | cons x t =>
      have he : rrRound ((x :: t) :: rest)
          = (match rrRound rest with
             | (o, some ts) => (x :: o, some (t :: ts))
             | (o, none) => (x :: o, none)) := rfl
      rw [he] at h
      cases hr : rrRound rest with
      | mk out2 opt =>
        rw [hr] at h
        cases opt with
        | some tails2 => exact Option.noConfusion (congrArg Prod.snd h)
        | none =>
          injection h with ha hb
          subst ha
          obtain ⟨⟨hlt, hempty⟩, hmem⟩ := ih hr
          refine ⟨⟨by simpa using hlt, by simpa using hempty⟩, ?_⟩
          intro p hp
          cases p with
          | zero => exact ⟨by simp, t, rfl⟩
          | succ q =>
            have hq : q < out2.length := by simpa using hp
            obtain ⟨hqd, tl, heq⟩ := hmem q hq
            exact ⟨by simpa using hqd, tl, heq⟩

theorem minLenN_le : ∀ (l : List ℕ) (p : ℕ) (hp : p < l.length),
    minLenN l ≤ l.get ⟨p, hp⟩ := by
  intro l
  induction l with
  | nil => intro p hp; exact absurd hp (by simp)
  | cons n rest ih =>
    intro p hp
    cases rest with
    | nil =>
      cases p with
      | zero => exact Nat.le_refl n
      | succ q => exact absurd hp (by simp)
    | cons n2 r2 =>
      cases p with
      | zero => exact Nat.min_le_left _ _
      | succ q =>
        have hq : q < (n2 :: r2).length := by simpa using hp
        exact Nat.le_trans (Nat.min_le_right _ _) (ih q hq)

theorem minLen_le (dss : List (List α)) (p : ℕ) (hp : p < dss.length) :
    minLen dss ≤ (dss.get ⟨p, hp⟩).length := by
  have hp2 : p < (dss.map List.length).length := by simpa using hp
  have := minLenN_le (dss.map List.length) p hp2
  simpa [List.get_map] using this

theorem minLenN_shift : ∀ (l1 l2 : List ℕ), l1.length = l2.length →
    (∀ p (hp1 : p < l1.length) (hp2 : p < l2.length),
        l1.get ⟨p, hp1⟩ = l2.get ⟨p, hp2⟩ + 1) →
    l1 ≠ [] → minLenN l1 = minLenN l2 + 1 := by
  intro l1
  induction l1 with
  | nil => intro l2 _ _ hne; exact absurd rfl hne
  | cons n r ih =>
    intro l2 hlen hpt _
    cases l2 with
    | nil => simp at hlen
    | cons m s =>
      have h0 : n = m + 1 := hpt 0 (by simp) (by simp)
      cases r with
      | nil =>
        cases s with
        | nil => simpa [minLenN] using h0
        | cons m2 s2 => simp at hlen
      | cons n2 r2 =>
        cases s with
        | nil => simp at hlen
        | cons m2 s2 =>
          have hlen2 : (n2 :: r2).length = (m2 :: s2).length := by simpa using hlen
          have hpt2 : ∀ p (hp1 : p < (n2 :: r2).length) (hp2 : p < (m2 :: s2).length),
              (n2 :: r2).get ⟨p, hp1⟩ = (m2 :: s2).get ⟨p, hp2⟩ + 1 := by
            intro p hp1 hp2
            exact hpt (p + 1) (by simpa using hp1) (by simpa using hp2)
          have hih := ih (m2 :: s2) hlen2 hpt2 (by simp)
          show min n (minLenN (n2 :: r2)) = min m (minLenN (m2 :: s2)) + 1
          rw [h0, hih]
          exact Nat.succ_min_succ m (minLenN (m2 :: s2))

theorem rrRound_some_minLen {dss tails : List (List α)} {out : List α}
    (h : rrRound dss = (out, some tails)) (hne : dss ≠ []) :
    minLen dss = minLen tails + 1 := by
  obtain ⟨h1, h2, h3⟩ := rrRound_some_spec h
  apply minLenN_shift
  · simp [h2]
  · intro p hp1 hp2
    have hpd : p < dss.length := by simpa using hp1
    have hpt : p < tails.length := by simpa using hp2
    obtain ⟨hpo, hpt2, heq⟩ := h3 p hpd
    simp only [List.get_map]
    rw [heq]
    simp
  · simpa using hne

theorem rrRound_none_minLen {dss : List (List α)} {out : List α}
    (h : rrRound dss = (out, none)) : minLen dss = 0 := by
  obtain ⟨⟨hlt, hempty⟩, -⟩ := rrRound_none_spec h
  have hle := minLen_le dss out.length hlt
  rw [hempty] at hle
  simpa using hle

theorem countP_tagged : ∀ (out : List (ℕ × α)) (off i : ℕ),
    (∀ p (hp : p < out.length), (out.get ⟨p, hp⟩).1 = off + p) →
    out.countP (fun x => x.1 == off + i) = if i < out.length then 1 else 0 := by
  intro out
  induction out with
  | nil => intro off i h; simp
  | cons x rest ih =>
    intro off i h
    have hx : x.1 = off := by simpa using h 0 (by simp)
    have hrest : ∀ p (hp : p < rest.length), (rest.get ⟨p, hp⟩).1 = (off + 1) + p := by
      intro p hp
      have h2 := h (p + 1) (by simpa using hp)
      simp only [List.get_cons_succ] at h2
      omega
    rw [List.countP_cons]
    cases i with
    | zero =>
      have hzero : rest.countP (fun y => y.1 == off + 0) = 0 := by
        apply List.countP_eq_zero.mpr
        intro a ha
        obtain ⟨⟨p, hp⟩, rfl⟩ := List.mem_iff_get.mp ha
        have h3 := hrest p hp
        simp only [beq_iff_eq]
        omega
      simp [hzero, hx]
      intro a b hab
      obtain ⟨⟨p, hp⟩, hget⟩ := List.mem_iff_get.mp hab
      have h3 := hrest p hp
      rw [hget] at h3
      simp only at h3
      omega
    | succ svar =>
      have heq : off + (svar + 1) = (off + 1) + svar := by omega
      rw [heq]
      have hxne : (x.1 == (off + 1) + svar) = false := by
        simp only [beq_eq_false_iff_ne, ne_eq, hx]
        omega
      simp only [hxne, Bool.false_eq_true, if_false, ih (off + 1) svar hrest,
        List.length_cons, Nat.add_zero]
      simp [Nat.succ_lt_succ_iff]

/-- Every element of the `p`-th list of the family carries tag `off + p`. -/
def TaggedFrom (off : ℕ) (dss : List (List (ℕ × α))) : Prop :=
  ∀ p (hp : p < dss.length), ∀ x ∈ dss.get ⟨p, hp⟩, x.1 = off + p

theorem rrFuel_count : ∀ (fuel : ℕ) (dss : List (List (ℕ × α))) (off : ℕ),
    minLen dss + 1 ≤ fuel → TaggedFrom off dss →
    ∃ j, j ≤ dss.length ∧ ∀ i, i < dss.length →
      (rrFuel fuel dss).countP (fun x => x.1 == off + i)
        = minLen dss + if i < j then 1 else 0 := by
  intro fuel
  induction fuel with
  | zero => intro dss off hf _; omega
  | succ fuel ih =>
    intro dss off hf htag
    cases dss with
    | nil =>
      refine ⟨0, Nat.le_refl 0, ?_⟩
      intro i hi
      exact absurd hi (by simp)
    | cons l rest =>
      cases hr : rrRound (l :: rest) with
      | mk out opt =>
        cases opt with
        | none =>
          have hred : rrFuel (fuel + 1) (l :: rest) = out := by
            simp only [rrFuel]
            rw [hr]
          have hm0 : minLen (l :: rest) = 0 := rrRound_none_minLen hr
          obtain ⟨⟨hlt, hempty⟩, hmem⟩ := rrRound_none_spec hr
          refine ⟨out.length, Nat.le_of_lt hlt, ?_⟩
          intro i hi
          rw [hred, hm0]
          have htags : ∀ p (hp : p < out.length), (out.get ⟨p, hp⟩).1 = off + p := by
            intro p hp
            obtain ⟨hpd, tl, heq⟩ := hmem p hp
            have hx : out.get ⟨p, hp⟩ ∈ (l :: rest).get ⟨p, hpd⟩ := by
              rw [heq]
              exact List.mem_cons_self _ _
            exact htag p hpd _ hx
          rw [countP_tagged out off i htags]
          simp
        | some tails =>
          have hred : rrFuel (fuel + 1) (l :: rest) = out ++ rrFuel fuel tails := by
            simp only [rrFuel]
            rw [hr]
          have hne : (l :: rest) ≠ ([] : List (List (ℕ × α))) := by simp
          have hm1 : minLen (l :: rest) = minLen tails + 1 := rrRound_some_minLen hr hne
          obtain ⟨hlo, hlt, hget⟩ := rrRound_some_spec hr
          have htag2 : TaggedFrom off tails := by
            intro p hp x hx
            have hpd : p < (l :: rest).length := by omega
            obtain ⟨hpo, hpt, heq⟩ := hget p hpd
            have hmem2 : x ∈ (l :: rest).get ⟨p, hpd⟩ := by
              rw [heq]
              exact List.mem_cons_of_mem _ hx
            exact htag p hpd x hmem2
          have hfuel : minLen tails + 1 ≤ fuel := by omega
          obtain ⟨j, hj, hcount⟩ := ih tails off hfuel htag2
          refine ⟨j, by omega, ?_⟩
          intro i hi
          rw [hred, List.countP_append]
          have htags : ∀ p (hp : p < out.length), (out.get ⟨p, hp⟩).1 = off + p := by
            intro p hp
            have hpd : p < (l :: rest).length := by omega
            obtain ⟨hpo, hpt, heq⟩ := hget p hpd
            have hx : out.get ⟨p, hp⟩ ∈ (l :: rest).get ⟨p, hpd⟩ := by
              rw [heq]
              exact List.mem_cons_self _ _
            exact htag p hpd _ hx
          rw [countP_tagged out off i htags]
          have hiout : i < out.length := by omega
          rw [if_pos hiout, hcount i (by omega), hm1]
          by_cases hij : i < j <;> simp [hij] <;> omega

theorem rrFuel_mem : ∀ (fuel : ℕ) (dss : List (List α)) (x : α),
    x ∈ rrFuel fuel dss → ∃ l ∈ dss, x ∈ l := by
  intro fuel
  induction fuel with
  | zero => intro dss x hx; simp [rrFuel] at hx
  | succ fuel ih =>
    intro dss x hx
    cases dss with
    | nil => simp [rrFuel] at hx
    | cons l rest =>
      cases hr : rrRound (l :: rest) with
      | mk out opt =>
        cases opt with
        | none =>
          have hred : rrFuel (fuel + 1) (l :: rest) = out := by
            simp only [rrFuel]
            rw [hr]
          rw [hred] at hx
          obtain ⟨⟨hlt, hempty⟩, hmem⟩ := rrRound_none_spec hr
          obtain ⟨⟨p, hp⟩, rfl⟩ := List.mem_iff_get.mp hx
          obtain ⟨hpd, tl, heq⟩ := hmem p hp
          refine ⟨(l :: rest).get ⟨p, hpd⟩, List.get_mem _ _ _, ?_⟩
          rw [heq]
          exact List.mem_cons_self _ _
        | some tails =>
          have hred : rrFuel (fuel + 1) (l :: rest) = out ++ rrFuel fuel tails := by
            simp only [rrFuel]
            rw [hr]
          rw [hred] at hx
          obtain ⟨hlo, hlt, hget⟩ := rrRound_some_spec hr
          rcases List.mem_append.mp hx with hx1 | hx2
          · obtain ⟨⟨p, hp⟩, rfl⟩ := List.mem_iff_get.mp hx1
            have hpd : p < (l :: rest).length := by omega
            obtain ⟨hpo, hpt, heq⟩ := hget p hpd
            refine ⟨(l :: rest).get ⟨p, hpd⟩, List.get_mem _ _ _, ?_⟩
            rw [heq]
            exact List.mem_cons_self _ _
          · obtain ⟨tl, htl, hxtl⟩ := ih tails x hx2
            obtain ⟨⟨p, hp⟩, rfl⟩ := List.mem_iff_get.mp htl
            have hpd : p < (l :: rest).length := by omega
            obtain ⟨hpo, hpt, heq⟩ := hget p hpd
            refine ⟨(l :: rest).get ⟨p, hpd⟩, List.get_mem _ _ _, ?_⟩
            rw [heq]
            exact List.mem_cons_of_mem _ hxtl

/-- Tag every example with its dataset's position, starting at `off` (the
positional identity of the `builder_name`/`config_name` pair the source
attaches to each yielded record). -/
def tagIdx (off : ℕ) : List (PromptDataset α) → List (List (ℕ × α))
  | [] => []
  | ds :: rest => ds.examples.map (Prod.mk off) :: tagIdx (off + 1) rest

theorem tagIdx_length : ∀ (off : ℕ) (dss : List (PromptDataset α)),
    (tagIdx off dss).length = dss.length := by
  intro off dss
  induction dss generalizing off with
  | nil => rfl
  | cons ds rest ih => simp [tagIdx, ih]

theorem tagIdx_tagged : ∀ (off : ℕ) (dss : List (PromptDataset α)),
    TaggedFrom off (tagIdx off dss) := by
  intro off dss
  induction dss generalizing off with
  | nil => intro p hp; simp [tagIdx] at hp
  | cons ds rest ih =>
    intro p hp x hx
    cases p with
    | zero =>
      simp only [tagIdx, List.get_cons_zero] at hx
      obtain ⟨a, -, rfl⟩ := List.mem_map.mp hx
      simp
    | succ q =>
      have hq : q < (tagIdx (off + 1) rest).length := by
        simpa [tagIdx] using hp
      have h2 := ih (off + 1) q hq x (by simpa [tagIdx] using hx)
      omega

theorem tagIdx_map_length : ∀ (off : ℕ) (dss : List (PromptDataset α)),
    (tagIdx off dss).map List.length = dss.map (fun ds => ds.examples.length) := by
  intro off dss
  induction dss generalizing off with
  | nil => rfl
  | cons ds rest ih => simp [tagIdx, ih]

theorem minLen_tagIdx (off : ℕ) (dss : List (PromptDataset α)) :
    minLen (tagIdx off dss) = minLenN (dss.map (fun ds => ds.examples.length)) := by
  unfold minLen
  rw [tagIdx_map_length]

theorem tagIdx_mem : ∀ (off : ℕ) (dss : List (PromptDataset α)) (l : List (ℕ × α)),
    l ∈ tagIdx off dss → ∃ ds ∈ dss, ∃ t, l = ds.examples.map (Prod.mk t) := by
  intro off dss
  induction dss generalizing off with
  | nil => intro l hl; simp [tagIdx] at hl
  | cons ds rest ih =>
    intro l hl
    rcases List.mem_cons.mp hl with h1 | h2
    · exact ⟨ds, by simp, off, h1⟩
    · obtain ⟨ds2, hds2, t, rfl⟩ := ih (off + 1) l h2
      exact ⟨ds2, by simp [hds2], t, rfl⟩

theorem mapMExcept_ok_of_all (f : α → Except PyError β) :
    ∀ (l : List α), (∀ x ∈ l, (f x).isOk = true) →
      ∃ out, mapMExcept f l = Except.ok out := by
  intro l
  induction l with
  | nil => exact fun _ => ⟨[], rfl⟩
  | cons x xs ih =>
    intro h
    have hx := h x (by simp)
    cases hf : f x with
    | error e => rw [hf] at hx; simp [Except.isOk, Except.toBool] at hx
    | ok y =>
      obtain ⟨out, hout⟩ := ih (fun a ha => h a (by simp [ha]))
      refine ⟨y :: out, ?_⟩
      simp only [mapMExcept, hf, hout]

theorem mapMExcept_fst (conv : α → Except PyError β) :
    ∀ (l : List (ℕ × α)) (out : List (ℕ × β)),
      mapMExcept (fun p => match conv p.2 with
        | Except.error e => Except.error e
        | Except.ok b => Except.ok (p.1, b)) l = Except.ok out →
      out.map Prod.fst = l.map Prod.fst := by
  intro l
  induction l with
  | nil =>
    intro out h
    simp only [mapMExcept] at h
    cases h
    rfl
  | cons x xs ih =>
    intro out h
    simp only [mapMExcept] at h
    cases hc : conv x.2 with
    | error e => rw [hc] at h; cases h
    | ok b =>
      rw [hc] at h
      cases hm : mapMExcept (fun p => match conv p.2 with
          | Except.error e => Except.error e
          | Except.ok b => Except.ok (p.1, b)) xs with
      | error e => rw [hm] at h; cases h
      | ok ys =>
        rw [hm] at h
        cases h
        simp [ih ys hm]

/-- Number of yielded records originating from dataset position `i`. -/
def countTag (i : ℕ) (out : List (ℕ × β)) : ℕ :=
  out.countP (fun x => x.1 == i)

theorem countTag_eq_of_map_fst {out1 : List (ℕ × β)} {out2 : List (ℕ × γ)}
    (h : out1.map Prod.fst = out2.map Prod.fst) (i : ℕ) :
    countTag i out1 = countTag i out2 := by
  unfold countTag
  have h1 : out1.countP (fun x => x.1 == i)
      = (out1.map Prod.fst).countP (fun t => t == i) := by
    rw [List.countP_map]
    rfl
  have h2 : out2.countP (fun x => x.1 == i)
      = (out2.map Prod.fst).countP (fun t => t == i) := by
    rw [List.countP_map]
    rfl
  rw [h1, h2, h]

/-- The `num_classes = num_classes or infer_num_classes(...)` fold of the
loading loop: a zero (falsy) running value is replaced by the dataset's
inferred count, and `class_counts` collects the running value after each
dataset. -/
def resolveClassCounts (nc : ℕ) : List (PromptDataset α) → List ℕ
  | [] => []
  | ds :: rest =>
    let nc2 := if nc = 0 then ds.inferredClasses else nc
    nc2 :: resolveClassCounts nc2 rest

/-- The `# classes should be the same for all datasets` check
(`prompt_loading.py` lines 142–147). -/
def classCheckPasses (nc : ℕ) (dss : List (PromptDataset α)) : Bool :=
  match resolveClassCounts nc dss with
  | [] => true
  | c0 :: rest => rest.all (fun c => c == c0)

/-- `min(len(prompter.templates) for prompter in prompters)`. -/
def minTemplates (dss : List (PromptDataset α)) : ℕ :=
  minLenN (dss.map PromptDataset.numTemplates)

/-- `num_variants = min_num_templates if num_variants == -1 else
min(num_variants, min_num_templates)`. -/
def resolveVariants (nv : ℤ) (dss : List (PromptDataset α)) : ℤ :=
  if nv = -1 then (minTemplates dss : ℤ) else min nv (minTemplates dss : ℤ)

/-- `load_prompts`: unpack the per-dataset class counts (`num_classes,
*rest = class_counts` raises on an empty dataset list) and check they all
agree; resolve the number of variants and `assert num_variants > 0`; then
run the cycle loop, converting each yielded example — `_convert_to_prompts`
with its prompter, rng state and resolved counts is abstracted as `conv` —
and tagging it with its dataset's position. -/
def loadPrompts (conv : α → Except PyError β) (numClasses : ℕ) (numVariants : ℤ)
    (dss : List (PromptDataset α)) : Except PyError (List (ℕ × β)) :=
  match dss with
  | [] => Except.error (PyError.valueError "not enough values to unpack")
  | _ :: _ =>
    if classCheckPasses numClasses dss then
      if 0 < resolveVariants numVariants dss then
        mapMExcept (fun p => match conv p.2 with
          | Except.error e => Except.error e
          | Except.ok b => Except.ok (p.1, b)) (roundRobin (tagIdx 0 dss))
      else Except.error (PyError.assertionError "num_variants > 0")
    else
      Except.error (PyError.valueError "# classes should be the same for all datasets")

/-- C10: when the class-count check and the variant assertion pass and
every yielded example converts successfully, `load_prompts` yields examples
by cycling through the datasets in round-robin order and returns — without
error — as soon as any single dataset's iterator is exhausted: each
dataset's contribution count is `min + 1` for the datasets before the
stopping point and `min` after it, so any two contribution counts differ by
at most one. -/
theorem load_prompts_round_robin (conv : α → Except PyError β)
    (numClasses : ℕ) (numVariants : ℤ) (dss : List (PromptDataset α))
    (hne : dss ≠ [])
    (hchk : classCheckPasses numClasses dss = true)
    (hnv : 0 < resolveVariants numVariants dss)
    (hconv : ∀ ds ∈ dss, ∀ a ∈ ds.examples, (conv a).isOk = true) :
    ∃ out, loadPrompts conv numClasses numVariants dss = Except.ok out
      ∧ (∃ j, j ≤ dss.length ∧ ∀ i, i < dss.length →
            countTag i out = minLenN (dss.map (fun ds => ds.examples.length))
              + if i < j then 1 else 0)
      ∧ ∀ i1 i2, i1 < dss.length → i2 < dss.length →
          countTag i1 out ≤ countTag i2 out + 1 := by
  have hmemok : ∀ x ∈ roundRobin (tagIdx 0 dss),
      ((fun p : ℕ × α => match conv p.2 with
        | Except.error e => Except.error e
        | Except.ok b => Except.ok (p.1, b)) x).isOk = true := by
    intro x hx
    obtain ⟨l, hl, hxl⟩ := rrFuel_mem _ _ x hx
    obtain ⟨ds, hds, t, rfl⟩ := tagIdx_mem 0 dss l hl
    obtain ⟨a, ha, rfl⟩ := List.mem_map.mp hxl
    have hok := hconv ds hds a ha
    cases hc : conv a with
    | error e => rw [hc] at hok; simp [Except.isOk, Except.toBool] at hok
    | ok b => simp [hc, Except.isOk, Except.toBool]
  obtain ⟨out, hout⟩ := mapMExcept_ok_of_all _ _ hmemok
  have hfst := mapMExcept_fst conv _ out hout
  have hlp : loadPrompts conv numClasses numVariants dss = Except.ok out := by
    rcases dss with _ | ⟨d1, drest⟩
    · exact absurd rfl hne
    · simp only [loadPrompts]
      rw [if_pos hchk, if_pos hnv]
      exact hout
  obtain ⟨j, hj, hcount⟩ := rrFuel_count (minLen (tagIdx 0 dss) + 1)
    (tagIdx 0 dss) 0 (Nat.le_refl _) (tagIdx_tagged 0 dss)
  have hformula : ∀ i, i < dss.length →
      countTag i out = minLenN (dss.map (fun ds => ds.examples.length))
        + if i < j then 1 else 0 := by
    intro i hi
    have hi2 : i < (tagIdx 0 dss).length := by rwa [tagIdx_length]
    have hc := hcount i hi2
    simp only [Nat.zero_add, minLen_tagIdx] at hc
    rw [countTag_eq_of_map_fst hfst i]
    simp only [countTag, roundRobin, minLen_tagIdx]
    exact hc
  refine ⟨out, hlp, ⟨j, by rwa [tagIdx_length] at hj, hformula⟩, ?_⟩
  intro i1 i2 h1 h2
  rw [hformula i1 h1, hformula i2 h2]
  by_cases hj1 : i1 < j <;> by_cases hj2 : i2 < j <;> simp [hj1, hj2] <;> omega

/-- Concrete datasets for the C10 witness: three and two examples. -/
def dsP1 : PromptDataset ℕ := ⟨"imdb", 2, 3, [10, 11, 12]⟩

def dsP2 : PromptDataset ℕ := ⟨"boolq", 2, 5, [20, 21]⟩

/-- C10 witness: the theorem applied to two concrete datasets (all checks
passing, identity conversion) — the loader returns successfully. -/
theorem load_prompts_round_robin_witness :
    (loadPrompts (fun a : ℕ => Except.ok a) 0 (-1) [dsP1, dsP2]).isOk = true := by
  obtain ⟨out, hout, -, -⟩ := load_prompts_round_robin (fun a : ℕ => Except.ok a)
    0 (-1) [dsP1, dsP2] (by simp) (by decide) (by decide)
    (fun ds _ a _ => rfl)
  rw [hout]
  rfl

end Elk
